import Mathlib

/-!
Verification of the resilient real-time data synchronization layer of the
ai-trading repository: the candle-stream synchronizer (`handleKlineUpdate` in
`useMarketData`), the bulk-fetch pipeline (`BinanceDataFetcher.fetchKlines`),
the freshness cache and route handler (`src/app/api/binance/route.ts`), and
the `BinanceWebSocket` connection manager (`src/lib/websocket.ts`).

Numeric prices and timestamps from the source (float64 obtained by
`parseFloat` on decimal strings, and millisecond integers divided by 1000)
are represented by rational numbers; the structural claims verified here
(ordering, lengths, state transitions, branch selection) do not depend on
floating-point rounding.
-/

/-! ## Data model: ProcessedCandle (`src/lib/ai-analyzer.ts`, `useMarketData`) -/

/-- A processed candle: `{time, open, high, low, close, volume}` with `time`
in seconds.  The source field `open` is a Lean keyword, hence `openP`. -/
structure Candle where
  time : ℚ
  openP : ℚ
  high : ℚ
  low : ℚ
  close : ℚ
  volume : ℚ
deriving DecidableEq, Repr

/-- A candle with a given time and zero prices, for concrete test inputs. -/
def simpleCandle (t : ℚ) : Candle := ⟨t, 0, 0, 0, 0, 0⟩

/-! ## Candle stream synchronizer (`handleKlineUpdate`, part_000 lines 131-148) -/

/-- The synchronizer's bound: "Keep only last 100 candles". -/
def maxCandles : Nat := 100

/-- The else-branch of the `setCandleData` updater: `newData.push(currentCandle)`
followed by `if (newData.length > 100) newData.shift()`. -/
def pushTrim (prev : List Candle) (c : Candle) : List Candle :=
  let newData := prev ++ [c]
  if newData.length > maxCandles then newData.tail else newData

/-- The `setCandleData` updater inside `handleKlineUpdate`: if the list is
nonempty and the last candle has the same `time`, replace the last candle in
place; otherwise push and trim the head beyond 100. -/
def handleKlineUpdate (prev : List Candle) (c : Candle) : List Candle :=
  match prev.getLast? with
  | some last =>
      if last.time = c.time then prev.dropLast ++ [c]
      else pushTrim prev c
  | none => pushTrim prev c

/-- A whole sequence of live kline updates applied in arrival order. -/
def applyLiveUpdates (prev : List Candle) (updates : List Candle) : List Candle :=
  updates.foldl handleKlineUpdate prev

/-- Strict comparison by time. -/
def timeLt (a b : Candle) : Prop := a.time < b.time

instance : DecidableRel timeLt := fun a b =>
  inferInstanceAs (Decidable (a.time < b.time))

instance : IsTrans Candle timeLt := ⟨fun _ _ _ h1 h2 => lt_trans h1 h2⟩

/-- Boolean check that timestamps strictly increase between consecutive
candles. -/
def seriesOrderedB : List Candle → Bool
  | [] => true
  | [_] => true
  | a :: b :: rest => decide (a.time < b.time) && seriesOrderedB (b :: rest)

/-- Strict ordering invariant of a series: timestamps strictly increase
between consecutive candles (characterized as `List.Chain' timeLt` by
`seriesOrdered_iff`). -/
def seriesOrdered (l : List Candle) : Prop :=
  seriesOrderedB l = true

instance (l : List Candle) : Decidable (seriesOrdered l) :=
  inferInstanceAs (Decidable (seriesOrderedB l = true))

/-- A sequence of updates is admissible from a given series when each update,
at the moment it is applied, has a timestamp at least the current last
candle's timestamp (or the series is empty). -/
def admissibleFrom : List Candle → List Candle → Bool
  | _, [] => true
  | prev, c :: rest =>
      (match prev.getLast? with
       | none => true
       | some last => decide (last.time ≤ c.time))
      && admissibleFrom (handleKlineUpdate prev c) rest

/-! ## Bulk-fetch pipeline (`BinanceDataFetcher.fetchKlines`, ai-analyzer.ts 508-532) -/

/-- One raw kline row `[openTimeMs, open, high, low, close, volume, ...]`
from the upstream bulk endpoint; decimal-string prices are represented by
their numeric values. -/
structure KlineRow where
  openTime : ℤ
  openPrice : ℚ
  highPrice : ℚ
  lowPrice : ℚ
  closePrice : ℚ
  volume : ℚ
deriving DecidableEq, Repr

/-- The `data.map(...)` step of `fetchKlines`: `time = candle[0] / 1000`. -/
def rowToCandle (r : KlineRow) : Candle :=
  { time := (r.openTime : ℚ) / 1000
    openP := r.openPrice
    high := r.highPrice
    low := r.lowPrice
    close := r.closePrice
    volume := r.volume }

/-- Non-strict comparison by time, the key of `.sort((a, b) => a.time - b.time)`. -/
def timeLe (a b : Candle) : Prop := a.time ≤ b.time

instance : DecidableRel timeLe := fun a b =>
  inferInstanceAs (Decidable (a.time ≤ b.time))

instance : IsTotal Candle timeLe := ⟨fun a b => le_total a.time b.time⟩

instance : IsTrans Candle timeLe := ⟨fun _ _ _ h1 h2 => le_trans h1 h2⟩

/-- The `.sort((a, b) => a.time - b.time)` step: a stable sort by time
(JavaScript `Array.prototype.sort` is stable, as is insertion sort). -/
def sortByTime (l : List Candle) : List Candle :=
  List.insertionSort timeLe l

/-- Helper of `dedupAdj`: walk the sorted array dropping every element whose
time equals that of the element just before it in the array. -/
def dedupAdjGo (p : Candle) : List Candle → List Candle
  | [] => []
  | y :: ys =>
      if y.time = p.time then dedupAdjGo y ys else y :: dedupAdjGo y ys

/-- The `.filter((candle, index, array) => index == 0 ||
candle.time !== array[index-1].time)` step of `fetchKlines`: keep an element
iff it is first or differs in time from its predecessor in the sorted array. -/
def dedupAdj : List Candle → List Candle
  | [] => []
  | x :: xs => x :: dedupAdjGo x xs

/-- The full processing pipeline of `fetchKlines` on a parsed response body:
map to candles, sort ascending by time, drop adjacent duplicates.  (There is
no trimming step.)  `fetchData` then replaces the series wholesale with this
result via `setCandleData(candles)`. -/
def processKlines (raw : List KlineRow) : List Candle :=
  dedupAdj (sortByTime (raw.map rowToCandle))

/-- A concrete kline row used for counterexamples: ascending minute opens. -/
def demoRow (i : Nat) : KlineRow := ⟨(i : ℤ) * 60000, 1, 2, 0, 1, 5⟩

/-! ## Freshness cache (`src/app/api/binance/route.ts` lines 84-149) -/

/-- A cached or served payload.  Successful upstream JSON bodies are
abstracted by a tag; the two static fallback objects (`FALLBACK_DATA.ticker`
and `FALLBACK_DATA.price`, with the requested symbol spliced in) are
distinguished constructors. -/
inductive ApiData
  | upstream (v : Nat)
  | fallbackTicker (symbol : String)
  | fallbackPrice (symbol : String)
deriving DecidableEq, Repr

/-- `interface CacheEntry { data; timestamp; ttl }`. -/
structure CacheEntry where
  data : ApiData
  timestamp : ℤ
  ttl : ℤ
deriving DecidableEq, Repr

/-- The module-level `cache = new Map<string, CacheEntry>()`, as an
association list (first binding of a key wins). -/
def Cache : Type := List (String × CacheEntry)

instance : DecidableEq Cache := inferInstanceAs (DecidableEq (List _))

/-- `cache.get(key)`. -/
def cacheFind : Cache → String → Option CacheEntry
  | [], _ => none
  | (k', e) :: rest, k => if k' = k then some e else cacheFind rest k

/-- `cache.delete(key)`. -/
def cacheErase : Cache → String → Cache
  | [], _ => []
  | (k', e) :: rest, k =>
      if k' = k then cacheErase rest k else (k', e) :: cacheErase rest k

/-- `cache.set(key, entry)`: unconditional overwrite. -/
def cacheSet (c : Cache) (k : String) (e : CacheEntry) : Cache :=
  (k, e) :: cacheErase c k

/-- `getCachedData(key)` (route.ts lines 111-122), with `Date.now()` made an
explicit `now` parameter; returns the payload (or `null`) together with the
possibly-evicted cache. -/
def getCachedData (cache : Cache) (key : String) (now : ℤ) :
    Option ApiData × Cache :=
  match cacheFind cache key with
  | none => (none, cache)
  | some entry =>
      if now - entry.timestamp > entry.ttl then (none, cacheErase cache key)
      else (some entry.data, cache)

/-- `setCacheData(key, data, ttl)` (route.ts lines 125-131), with `Date.now()`
explicit. -/
def setCacheData (cache : Cache) (key : String) (data : ApiData) (ttl : ℤ)
    (now : ℤ) : Cache :=
  cacheSet cache key ⟨data, now, ttl⟩

/-- `cleanupCache()` (route.ts lines 101-108): drop every expired entry. -/
def cleanupCache (cache : Cache) (now : ℤ) : Cache :=
  cache.filter (fun e => ¬ (now - e.2.timestamp > e.2.ttl))

/-! ## Route handler `GET` (route.ts lines 151-316) -/

/-- The `endpoint` query parameter (the `default` arm of the switch behaves
as `klines`). -/
inductive Endpoint
  | ticker
  | price
  | klines
deriving DecidableEq, Repr

/-- Name used in the cache key. -/
def endpointName : Endpoint → String
  | Endpoint.ticker => "ticker"
  | Endpoint.price => "price"
  | Endpoint.klines => "klines"

/-- `CACHE_TTL` per endpoint (ms). -/
def cacheTtlOf : Endpoint → ℤ
  | Endpoint.ticker => 30000
  | Endpoint.price => 15000
  | Endpoint.klines => 300000

/-- `cacheKey = endpoint:symbol:interval:limit`. -/
def cacheKeyOf (endpoint : Endpoint) (symbol interval limit : String) : String :=
  endpointName endpoint ++ ":" ++ symbol ++ ":" ++ interval ++ ":" ++ limit

/-- Body of a route response: upstream/fallback JSON or the klines error
report (which contains no bar data). -/
inductive ResponseBody
  | json (d : ApiData)
  | errorReport (endpoint symbol : String)
deriving DecidableEq, Repr

/-- Observable part of a `NextResponse`: body, HTTP status, and whether the
`X-Fallback: true` header was set. -/
structure ApiResponse where
  body : ResponseBody
  status : Nat
  xFallback : Bool
deriving DecidableEq, Repr

/-- The `GET` handler.  Effects made explicit: `now` is `Date.now()`,
`doCleanup` is the `Math.random() < 0.1` roll, and `upstream` is the outcome
of the Binance fetch (`none` covers a thrown fetch error, timeout, or a
non-ok status).  Returns the response and the updated cache. -/
def GET (cache : Cache) (endpoint : Endpoint) (symbol interval limit : String)
    (now : ℤ) (doCleanup : Bool) (upstream : Option ApiData) :
    ApiResponse × Cache :=
  let pair := getCachedData (if doCleanup then cleanupCache cache now else cache)
      (cacheKeyOf endpoint symbol interval limit) now
  match pair.1 with
  | some d => (⟨ResponseBody.json d, 200, false⟩, pair.2)
  | none =>
      match upstream with
      | some d =>
          (⟨ResponseBody.json d, 200, false⟩,
           setCacheData pair.2 (cacheKeyOf endpoint symbol interval limit) d
             (cacheTtlOf endpoint) now)
      | none =>
          match endpoint with
          | Endpoint.ticker =>
              (⟨ResponseBody.json (ApiData.fallbackTicker symbol), 200, true⟩, pair.2)
          | Endpoint.price =>
              (⟨ResponseBody.json (ApiData.fallbackPrice symbol), 200, true⟩, pair.2)
          | Endpoint.klines =>
              (⟨ResponseBody.errorReport "klines" symbol, 500, false⟩, pair.2)

/-! ## BinanceWebSocket state machine (`src/lib/websocket.ts`) -/

/-- `maxReconnectAttempts = 5`. -/
def maxReconnectAttempts : Nat := 5

/-- `wsUrls` has three entries. -/
def wsUrlsLength : Nat := 3

/-- Browser `WebSocket.readyState` values. -/
inductive ReadyState
  | CONNECTING
  | OPEN
  | CLOSING
  | CLOSED
deriving DecidableEq, Repr

/-- Observable state of a `BinanceWebSocket` instance.  `socketsOpened` and
`timeoutTimersStarted` count `new WebSocket(...)` constructions and
connection-timeout `setTimeout` starts; `retryScheduled` records whether the
last `handleReconnect` scheduled another attempt; `errorCallbackCount` counts
`onErrorCallback` invocations. -/
structure WS where
  reconnectAttempts : Nat
  currentUrlIndex : Nat
  isConnecting : Bool
  wsReady : Option ReadyState
  connectionTimeoutActive : Bool
  heartbeatActive : Bool
  socketsOpened : Nat
  timeoutTimersStarted : Nat
  retryScheduled : Bool
  maxAttemptsErrorFired : Bool
  errorCallbackCount : Nat
deriving DecidableEq, Repr

/-- Freshly constructed instance (all fields at their initializers). -/
def WS.init : WS :=
  { reconnectAttempts := 0
    currentUrlIndex := 0
    isConnecting := false
    wsReady := none
    connectionTimeoutActive := false
    heartbeatActive := false
    socketsOpened := 0
    timeoutTimersStarted := 0
    retryScheduled := false
    maxAttemptsErrorFired := false
    errorCallbackCount := 0 }

/-- `connect()` (websocket.ts lines 68-97): if `isConnecting`, return
immediately; otherwise set `isConnecting`, construct a new `WebSocket`
(readyState `CONNECTING`) and start a 10s connection-timeout timer. -/
def connect (s : WS) : WS :=
  if s.isConnecting then s
  else
    { s with
      isConnecting := true
      wsReady := some ReadyState.CONNECTING
      socketsOpened := s.socketsOpened + 1
      connectionTimeoutActive := true
      timeoutTimersStarted := s.timeoutTimersStarted + 1 }

/-- The `onopen` handler (lines 99-114): clear `isConnecting`, reset the
attempt counter and URL index, cancel the timeout timer, start the
heartbeat. -/
def onOpen (s : WS) : WS :=
  { s with
    isConnecting := false
    reconnectAttempts := 0
    currentUrlIndex := 0
    connectionTimeoutActive := false
    heartbeatActive := true
    wsReady := some ReadyState.OPEN }

/-- `handleReconnect()` (lines 182-208): below the budget, bump the attempt
counter, rotate the URL index once the counter exceeds 2, and schedule a
retry; at the budget, fire the terminal `Max reconnection attempts reached`
error and schedule nothing. -/
def handleReconnect (s : WS) : WS :=
  if s.reconnectAttempts < maxReconnectAttempts then
    let a := s.reconnectAttempts + 1
    let idx :=
      if a > 2 then (s.currentUrlIndex + 1) % wsUrlsLength
      else s.currentUrlIndex
    { s with reconnectAttempts := a, currentUrlIndex := idx, retryScheduled := true }
  else
    { s with
      retryScheduled := false
      maxAttemptsErrorFired := true
      errorCallbackCount := s.errorCallbackCount + 1 }

/-- The `onerror` handler (lines 165-172): clear `isConnecting` and invoke
the error callback. -/
def onError (s : WS) : WS :=
  { s with isConnecting := false, errorCallbackCount := s.errorCallbackCount + 1 }

/-- The `onclose` handler for an abnormal close (code ≠ 1000, lines 144-163):
clear `isConnecting`, cancel the timeout timer, stop the heartbeat, then run
`handleReconnect`. -/
def onCloseAbnormal (s : WS) : WS :=
  handleReconnect
    { s with
      isConnecting := false
      connectionTimeoutActive := false
      heartbeatActive := false
      wsReady := some ReadyState.CLOSED }

/-- One failed connection attempt: `connect()` whose socket errors and then
closes abnormally. -/
def failedAttempt (s : WS) : WS :=
  onCloseAbnormal (onError (connect s))

/-- `n` consecutive failed connection attempts. -/
def iterFailed : Nat → WS → WS
  | 0, s => s
  | n + 1, s => iterFailed n (failedAttempt s)

/-- The base reconnect delay (line 193):
`Math.min(1000 * Math.pow(2, reconnectAttempts - 1), 30000)` where the
counter has already been incremented, so it equals the 1-indexed attempt
number `a`. -/
def reconnectBaseDelay (a : Nat) : Nat :=
  min (1000 * 2 ^ (a - 1)) 30000

/-- Modelled from the spec: "attempt count `a` (1-indexed) waits
`min(1000 * 2^(a-1), 30000)` ms".  Stated separately to compare with the
source's `reconnectBaseDelay`. -/
def specBackoffDelay (a : Nat) : Nat :=
  min (1000 * 2 ^ (a - 1)) 30000

/-- The jitter term (line 194): `Math.random() * 1000` for a random
`r ∈ [0, 1)`. -/
def jitterOf (r : ℚ) : ℚ := r * 1000

/-! ## Stream message handling (websocket.ts lines 116-142, useMarketData) -/

/-- The `k` object of a kline stream frame (prices as decimal strings). -/
structure KlinePayload where
  t : ℤ
  o : String
  h : String
  l : String
  c : String
  v : String
deriving DecidableEq, Repr

/-- A parsed kline stream frame. -/
structure WsMessage where
  e : String
  E : ℤ
  s : String
  k : KlinePayload
deriving DecidableEq, Repr

/-- `WebSocketTickerData` as forwarded to `onTickerUpdate`. -/
structure WebSocketTickerData where
  e : String
  E : ℤ
  s : String
  c : String
  o : String
  h : String
  l : String
  P : String
  p : String
deriving DecidableEq, Repr

/-- The `onmessage` handler's ticker-simulation branch: on a `kline` event
whose `k.c` is truthy (a non-empty string), forward a synthesized 24hrTicker
with `P` and `p` hard-coded to `"0.00"`; otherwise forward nothing. -/
def onMessageTicker (msg : WsMessage) : Option WebSocketTickerData :=
  if msg.e = "kline" ∧ msg.k.c ≠ "" then
    some
      { e := "24hrTicker"
        E := msg.E
        s := msg.s
        c := msg.k.c
        o := msg.k.o
        h := msg.k.h
        l := msg.k.l
        P := "0.00"
        p := "0.00" }
  else none

/-- Digit-string accumulator for `parseDec`. -/
def digitsValAux : Nat → List Char → Option Nat
  | acc, [] => some acc
  | acc, ch :: rest =>
      if '0' ≤ ch ∧ ch ≤ '9' then
        digitsValAux (acc * 10 + (ch.toNat - 48)) rest
      else none

/-- `parseFloat` restricted to plain decimal literals (the only shapes fed to
it on the quote path); NaN outcomes are collapsed to 0 and never relied on. -/
def parseDec (s : String) : ℚ :=
  let go : List Char → ℚ := fun cs =>
    match cs.splitOn '.' with
    | [ip] =>
        match digitsValAux 0 ip with
        | some n => (n : ℚ)
        | none => 0
    | [ip, fp] =>
        match digitsValAux 0 ip, digitsValAux 0 fp with
        | some n, some f => (n : ℚ) + (f : ℚ) / (10 : ℚ) ^ fp.length
        | _, _ => 0
    | _ => 0
  match s.toList with
  | '-' :: rest => - go rest
  | cs => go cs

/-- The consumer-side price state of `useMarketData`. -/
structure MarketState where
  currentPrice : Option ℚ
  priceChange : ℚ
  priceChangePercent : ℚ
deriving DecidableEq, Repr

/-- `handleTickerUpdate` (useMarketData lines 153-168): overwrite the price,
change, and change-percent state with `parseFloat` of the frame fields. -/
def handleTickerUpdate (st : MarketState) (data : WebSocketTickerData) :
    MarketState :=
  { st with
    currentPrice := some (parseDec data.c)
    priceChange := parseDec data.p
    priceChangePercent := parseDec data.P }

/-! ## Lemmas: ordering behaviour of the synchronizer -/

theorem seriesOrdered_iff : ∀ (l : List Candle), seriesOrdered l ↔ List.Chain' timeLt l
  | [] => by simp [seriesOrdered, seriesOrderedB]
  | [a] => by simp [seriesOrdered, seriesOrderedB]
  | a :: b :: rest => by
      have ih := seriesOrdered_iff (b :: rest)
      rw [seriesOrdered] at ih ⊢
      rw [seriesOrderedB, Bool.and_eq_true, List.chain'_cons]
      exact and_congr decide_eq_true_iff ih

theorem pushTrim_ordered {prev : List Candle} {c : Candle}
    (h : seriesOrdered prev)
    (hc : ∀ last ∈ prev.getLast?, last.time < c.time) :
    seriesOrdered (pushTrim prev c) := by
  rw [seriesOrdered_iff] at h ⊢
  have happ : List.Chain' timeLt (prev ++ [c]) := by
    refine List.chain'_append.2 ⟨h, List.chain'_singleton c, ?_⟩
    intro x hx y hy
    simp only [List.head?_cons, Option.mem_def, Option.some.injEq] at hy
    subst hy
    exact hc x hx
  show List.Chain' timeLt
    (if (prev ++ [c]).length > maxCandles then (prev ++ [c]).tail else prev ++ [c])
  by_cases hlen : (prev ++ [c]).length > maxCandles
  · rw [if_pos hlen]; exact happ.tail
  · rw [if_neg hlen]; exact happ

theorem handleKlineUpdate_ordered {prev : List Candle} {c : Candle}
    (h : seriesOrdered prev)
    (hc : ∀ last ∈ prev.getLast?, last.time ≤ c.time) :
    seriesOrdered (handleKlineUpdate prev c) := by
  cases hl : prev.getLast? with
  | none =>
      have hnil : prev = [] := List.getLast?_eq_none_iff.mp hl
      subst hnil
      rfl
  | some last =>
      by_cases heq : last.time = c.time
      · have he : handleKlineUpdate prev c = prev.dropLast ++ [c] := by
          simp [handleKlineUpdate, hl, heq]
        rw [he, seriesOrdered_iff]
        have hchain := (seriesOrdered_iff prev).1 h
        have hdec : prev.dropLast ++ [last] = prev :=
          List.dropLast_append_getLast? last hl
        have h' : List.Chain' timeLt (prev.dropLast ++ [last]) := by
          rw [hdec]; exact hchain
        obtain ⟨h1, -, h3⟩ := List.chain'_append.1 h'
        refine List.chain'_append.2 ⟨h1, List.chain'_singleton c, ?_⟩
        intro x hx y hy
        simp only [List.head?_cons, Option.mem_def, Option.some.injEq] at hy
        subst hy
        have hxl : timeLt x last := h3 x hx last rfl
        show x.time < c.time
        rw [← heq]
        exact hxl
      · have he : handleKlineUpdate prev c = pushTrim prev c := by
          simp [handleKlineUpdate, hl, heq]
        rw [he]
        refine pushTrim_ordered h ?_
        intro x hx
        have hx' : x = last := by
          rw [hl, Option.mem_def, Option.some.injEq] at hx
          exact hx.symm
        subst hx'
        exact lt_of_le_of_ne (hc x hl) heq

/-- Every strictly ordered series is pairwise distinct in time. -/
theorem seriesOrdered_pairwise_ne {l : List Candle} (h : seriesOrdered l) :
    List.Pairwise (fun a b => a.time ≠ b.time) l := by
  have hp : List.Pairwise timeLt l :=
    List.chain'_iff_pairwise.1 ((seriesOrdered_iff l).1 h)
  exact hp.imp (fun hab => ne_of_lt hab)

/-- Ordered series stay ordered along any admissible update sequence. -/
theorem applyLiveUpdates_ordered : ∀ (updates : List Candle) (p : List Candle),
    seriesOrdered p → admissibleFrom p updates = true →
    seriesOrdered (applyLiveUpdates p updates)
  | [], _, hp, _ => hp
  | c :: rest, p, hp, hadm => by
      simp only [admissibleFrom, Bool.and_eq_true] at hadm
      obtain ⟨h1, h2⟩ := hadm
      have hstep : seriesOrdered (handleKlineUpdate p c) := by
        refine handleKlineUpdate_ordered hp ?_
        intro last hl
        rw [hl] at h1
        exact of_decide_eq_true h1
      exact applyLiveUpdates_ordered rest (handleKlineUpdate p c) hstep h2

/-- C1 counterexample: from the strictly ordered series with times 10, 20, a
stale update with time 5 is not discarded — it is appended, the series
changes, and the strict ordering invariant is destroyed. -/
theorem liveUpdate_stale_not_discarded :
    handleKlineUpdate [simpleCandle 10, simpleCandle 20] (simpleCandle 5) ≠
      [simpleCandle 10, simpleCandle 20] ∧
    ¬ seriesOrdered
      (handleKlineUpdate [simpleCandle 10, simpleCandle 20] (simpleCandle 5)) := by
  decide

/-- C1 (amended): `handleKlineUpdate` does not discard stale updates (an
update whose time differs from the last candle's is appended, head-trimmed
beyond 100).  The ordering invariant therefore holds only for admissible
update sequences: starting from a strictly ordered series, if every update's
timestamp is at least the current last candle's timestamp at the moment it is
applied, the resulting series is strictly increasing with no duplicate
timestamps. -/
theorem liveUpdate_order_preserved_of_admissible
    (prev : List Candle) (updates : List Candle)
    (hprev : seriesOrdered prev)
    (hadm : admissibleFrom prev updates = true) :
    seriesOrdered (applyLiveUpdates prev updates) ∧
    List.Pairwise (fun a b => a.time ≠ b.time) (applyLiveUpdates prev updates) := by
  have hres := applyLiveUpdates_ordered updates prev hprev hadm
  exact ⟨hres, seriesOrdered_pairwise_ne hres⟩

/-- Witness for C1 at a concrete ordered series and admissible updates. -/
theorem liveUpdate_order_preserved_witness :
    seriesOrdered (applyLiveUpdates [simpleCandle 1, simpleCandle 2]
      [simpleCandle 2, simpleCandle 3]) ∧
    List.Pairwise (fun a b => a.time ≠ b.time)
      (applyLiveUpdates [simpleCandle 1, simpleCandle 2]
        [simpleCandle 2, simpleCandle 3]) :=
  liveUpdate_order_preserved_of_admissible _ _ (by decide) (by decide)

/-! ## Length behaviour of the synchronizer and bulk pipeline -/

theorem pushTrim_length_le {prev : List Candle} (c : Candle)
    (h : prev.length ≤ maxCandles) :
    (pushTrim prev c).length ≤ maxCandles := by
  show (if (prev ++ [c]).length > maxCandles then (prev ++ [c]).tail
        else prev ++ [c]).length ≤ maxCandles
  by_cases hlen : (prev ++ [c]).length > maxCandles
  · rw [if_pos hlen]
    simp only [List.length_tail, List.length_append, List.length_singleton]
    omega
  · rw [if_neg hlen]
    simp only [List.length_append, List.length_singleton] at hlen ⊢
    omega

theorem handleKlineUpdate_eq_of_ne {prev : List Candle} {c last : Candle}
    (hlast : prev.getLast? = some last) (hne : last.time ≠ c.time) :
    handleKlineUpdate prev c = pushTrim prev c := by
  simp [handleKlineUpdate, hlast, hne]

theorem handleKlineUpdate_trim {prev : List Candle} {c last : Candle}
    (hlast : prev.getLast? = some last) (hne : last.time ≠ c.time)
    (hfull : maxCandles ≤ prev.length) :
    handleKlineUpdate prev c = prev.tail ++ [c] := by
  have hnil : prev ≠ [] := by
    intro h; subst h; simp at hlast
  have hgt : (prev ++ [c]).length > maxCandles := by
    simp only [List.length_append, List.length_singleton]
    omega
  rw [handleKlineUpdate_eq_of_ne hlast hne]
  show (if (prev ++ [c]).length > maxCandles then (prev ++ [c]).tail
        else prev ++ [c]) = prev.tail ++ [c]
  rw [if_pos hgt]
  cases prev with
  | nil => exact absurd rfl hnil
  | cons a as => simp

/-- C2: single-step behaviour of `handleKlineUpdate`.  With a nonempty series
whose last candle is `last`: an update with `c.time = last.time` replaces the
last candle in place and keeps the length; an update with `last.time < c.time`
is appended as-is while the length stays below 100, and at length exactly 100
the head (oldest) candle is shifted off so the length returns to 100; on an
empty series the result is the one-element series `[c]`. -/
theorem handleKlineUpdate_cases (prev : List Candle) (c last : Candle)
    (hlast : prev.getLast? = some last) :
    (last.time = c.time →
      handleKlineUpdate prev c = prev.dropLast ++ [c] ∧
      (handleKlineUpdate prev c).length = prev.length) ∧
    (last.time < c.time →
      (prev.length < maxCandles → handleKlineUpdate prev c = prev ++ [c]) ∧
      (prev.length = maxCandles →
        handleKlineUpdate prev c = prev.tail ++ [c] ∧
        (handleKlineUpdate prev c).length = maxCandles)) ∧
    (∀ d : Candle, handleKlineUpdate [] d = [d]) := by
  have hnil : prev ≠ [] := by
    intro h; subst h; simp at hlast
  refine ⟨?_, ?_, fun d => rfl⟩
  · intro heq
    have he : handleKlineUpdate prev c = prev.dropLast ++ [c] := by
      simp [handleKlineUpdate, hlast, heq]
    refine ⟨he, ?_⟩
    rw [he]
    have hd : prev.dropLast.length = prev.length - 1 := List.length_dropLast prev
    have hpos : 0 < prev.length := List.length_pos.2 hnil
    simp only [List.length_append, List.length_singleton, hd]
    omega
  · intro hlt
    have hne : last.time ≠ c.time := ne_of_lt hlt
    constructor
    · intro hsmall
      rw [handleKlineUpdate_eq_of_ne hlast hne]
      show (if (prev ++ [c]).length > maxCandles then (prev ++ [c]).tail
            else prev ++ [c]) = prev ++ [c]
      rw [if_neg]
      simp only [List.length_append, List.length_singleton]
      omega
    · intro hfull
      have he := handleKlineUpdate_trim hlast hne (le_of_eq hfull.symm)
      refine ⟨he, ?_⟩
      rw [he]
      have hpos : 0 < prev.length := by rw [hfull]; decide
      simp only [List.length_append, List.length_singleton, List.length_tail]
      omega

/-- Witness for C2: replacement at equal time, plain append below the bound,
head-shift at the bound, and the empty-series case, on concrete inputs. -/
theorem handleKlineUpdate_cases_witness :
    handleKlineUpdate [simpleCandle 1, simpleCandle 2] (Candle.mk 2 0 0 0 9 0) =
      [simpleCandle 1, Candle.mk 2 0 0 0 9 0] ∧
    handleKlineUpdate [simpleCandle 1, simpleCandle 2] (simpleCandle 3) =
      [simpleCandle 1, simpleCandle 2, simpleCandle 3] ∧
    (handleKlineUpdate ((List.range 100).map (fun i => simpleCandle i))
      (simpleCandle 1000)).length = maxCandles ∧
    handleKlineUpdate [] (simpleCandle 7) = [simpleCandle 7] := by
  have h1 := handleKlineUpdate_cases [simpleCandle 1, simpleCandle 2]
    (Candle.mk 2 0 0 0 9 0) (simpleCandle 2) (by decide)
  have h2 := handleKlineUpdate_cases [simpleCandle 1, simpleCandle 2]
    (simpleCandle 3) (simpleCandle 2) (by decide)
  have h3 := handleKlineUpdate_cases ((List.range 100).map (fun i => simpleCandle i))
    (simpleCandle 1000) (simpleCandle 99) (by decide)
  refine ⟨?_, ?_, ?_, (h1.2.2 (simpleCandle 7))⟩
  · have := (h1.1 (by decide)).1
    rw [this]; decide
  · have := (h2.2.1 (by decide)).1 (by decide)
    rw [this]; rfl
  · exact ((h3.2.1 (by decide)).2 (by decide)).2

theorem dedupAdjGo_length_le (p : Candle) :
    ∀ l : List Candle, (dedupAdjGo p l).length ≤ l.length := by
  intro l
  induction l generalizing p with
  | nil => simp [dedupAdjGo]
  | cons y ys ih =>
      by_cases heq : y.time = p.time
      · simp only [dedupAdjGo, if_pos heq, List.length_cons]
        exact le_trans (ih y) (Nat.le_succ _)
      · simp only [dedupAdjGo, if_neg heq, List.length_cons]
        exact Nat.succ_le_succ (ih y)

theorem dedupAdj_length_le : ∀ l : List Candle, (dedupAdj l).length ≤ l.length
  | [] => le_refl _
  | x :: xs => by
      simp only [dedupAdj, List.length_cons]
      exact Nat.succ_le_succ (dedupAdjGo_length_le x xs)

theorem sortByTime_length (l : List Candle) : (sortByTime l).length = l.length :=
  (List.perm_insertionSort timeLe l).length_eq

theorem processKlines_length_le (raw : List KlineRow) :
    (processKlines raw).length ≤ raw.length := by
  calc (processKlines raw).length
      ≤ (sortByTime (raw.map rowToCandle)).length :=
        dedupAdj_length_le _
    _ = (raw.map rowToCandle).length := sortByTime_length _
    _ = raw.length := List.length_map _ _

theorem dedupAdjGo_id (p : Candle) :
    ∀ l : List Candle, List.Chain' timeLt (p :: l) → dedupAdjGo p l = l
  | [], _ => rfl
  | y :: ys, h => by
      rw [List.chain'_cons] at h
      obtain ⟨hpy, hrest⟩ := h
      have hne : y.time ≠ p.time := ne_of_gt hpy
      simp only [dedupAdjGo, if_neg hne]
      rw [dedupAdjGo_id y ys hrest]

theorem dedupAdj_id : ∀ l : List Candle, List.Chain' timeLt l → dedupAdj l = l
  | [], _ => rfl
  | x :: xs, h => by
      simp only [dedupAdj]
      rw [dedupAdjGo_id x xs h]

/-- On a raw response whose mapped candles are already strictly increasing,
the pipeline is the identity on the mapped candles: nothing is reordered,
deduplicated, or trimmed. -/
theorem processKlines_of_chain {raw : List KlineRow}
    (h : List.Chain' timeLt (raw.map rowToCandle)) :
    processKlines raw = raw.map rowToCandle := by
  have hle : List.Sorted timeLe (raw.map rowToCandle) :=
    (List.chain'_iff_pairwise.1 h).imp (fun hab => le_of_lt hab)
  rw [processKlines, sortByTime, List.Sorted.insertionSort_eq hle]
  exact dedupAdj_id _ h

theorem demoRow_time (i : Nat) : (rowToCandle (demoRow i)).time = 60 * (i : ℚ) := by
  show ((((i : ℤ) * 60000 : ℤ) : ℚ)) / 1000 = 60 * (i : ℚ)
  push_cast
  ring

theorem demoRows_chain (n : Nat) :
    List.Chain' timeLt (((List.range (n + 1)).map demoRow).map rowToCandle) := by
  rw [List.map_map, List.chain'_map, List.chain'_range_succ]
  intro m _
  show (rowToCandle (demoRow m)).time < (rowToCandle (demoRow (m + 1))).time
  rw [demoRow_time, demoRow_time]
  push_cast
  linarith

/-- C3 counterexample: a bulk response of 101 rows with distinct timestamps
is loaded wholesale — the resulting series has 101 candles, exceeding the
bound N = 100 that the claim asserts for every series-writing operation. -/
theorem bulk_load_exceeds_bound :
    ¬ ((processKlines ((List.range 101).map demoRow)).length ≤ maxCandles) := by
  have h : processKlines ((List.range 101).map demoRow) =
      ((List.range 101).map demoRow).map rowToCandle :=
    processKlines_of_chain (demoRows_chain 100)
  rw [h, List.length_map, List.length_map, List.length_range]
  decide

/-- C3 (amended): the live-update path preserves the bound — from a series of
at most 100 candles, `handleKlineUpdate` yields at most 100 candles, and an
overflowing append evicts exactly the head (never the tail).  The bulk-load
path performs no trimming: `processKlines` only guarantees a length at most
that of the raw response, so the bound holds after a bulk load only when the
upstream returns at most 100 rows. -/
theorem series_bound_amended :
    (∀ (prev : List Candle) (c : Candle), prev.length ≤ maxCandles →
      (handleKlineUpdate prev c).length ≤ maxCandles) ∧
    (∀ (prev : List Candle) (c last : Candle), prev.getLast? = some last →
      last.time ≠ c.time → maxCandles ≤ prev.length →
      handleKlineUpdate prev c = prev.tail ++ [c]) ∧
    (∀ raw : List KlineRow, (processKlines raw).length ≤ raw.length) ∧
    (∀ raw : List KlineRow, raw.length ≤ maxCandles →
      (processKlines raw).length ≤ maxCandles) := by
  refine ⟨?_, fun prev c last hl hne hfull => handleKlineUpdate_trim hl hne hfull,
    processKlines_length_le, fun raw h => le_trans (processKlines_length_le raw) h⟩
  intro prev c hlen
  cases hl : prev.getLast? with
  | none =>
      have hnil : prev = [] := List.getLast?_eq_none_iff.mp hl
      subst hnil
      show ([c] : List Candle).length ≤ maxCandles
      norm_num [maxCandles]
  | some last =>
      by_cases heq : last.time = c.time
      · have hnil : prev ≠ [] := by
          intro h; subst h; simp at hl
        have he : handleKlineUpdate prev c = prev.dropLast ++ [c] := by
          simp [handleKlineUpdate, hl, heq]
        rw [he]
        have hd : prev.dropLast.length = prev.length - 1 := List.length_dropLast prev
        have hpos : 0 < prev.length := List.length_pos.2 hnil
        simp only [List.length_append, List.length_singleton, hd]
        omega
      · rw [handleKlineUpdate_eq_of_ne hl heq]
        exact pushTrim_length_le c hlen

/-- Witness for C3 on concrete inputs: a live update on a bounded series
stays bounded, an overflowing update on a full 100-candle series evicts the
head, and a 3-row bulk response stays within the bound. -/
theorem series_bound_amended_witness :
    (handleKlineUpdate [simpleCandle 4] (simpleCandle 9)).length ≤ maxCandles ∧
    handleKlineUpdate ((List.range 100).map (fun i => simpleCandle i))
        (simpleCandle 555) =
      ((List.range 100).map (fun i => simpleCandle i)).tail ++ [simpleCandle 555] ∧
    (processKlines [demoRow 0, demoRow 0, demoRow 1]).length ≤ maxCandles := by
  refine ⟨series_bound_amended.1 _ _ (by decide), ?_, ?_⟩
  · exact series_bound_amended.2.1 _ _ (simpleCandle 99) (by decide) (by decide)
      (by decide)
  · exact series_bound_amended.2.2.2 _ (by decide)

/-! ## Membership and timestamp preservation of the bulk pipeline -/

theorem dedupAdjGo_subset (p : Candle) :
    ∀ l : List Candle, ∀ c ∈ dedupAdjGo p l, c ∈ l := by
  intro l
  induction l generalizing p with
  | nil => intro c hc; simp [dedupAdjGo] at hc
  | cons y ys ih =>
      intro c hc
      by_cases heq : y.time = p.time
      · simp only [dedupAdjGo, if_pos heq] at hc
        exact List.mem_cons_of_mem y (ih y c hc)
      · simp only [dedupAdjGo, if_neg heq, List.mem_cons] at hc
        rcases hc with hc | hc
        · exact hc ▸ List.mem_cons_self y ys
        · exact List.mem_cons_of_mem y (ih y c hc)

theorem dedupAdj_subset : ∀ l : List Candle, ∀ c ∈ dedupAdj l, c ∈ l
  | [], c, hc => by simp [dedupAdj] at hc
  | x :: xs, c, hc => by
      simp only [dedupAdj, List.mem_cons] at hc
      rcases hc with hc | hc
      · exact hc ▸ List.mem_cons_self x xs
      · exact List.mem_cons_of_mem x (dedupAdjGo_subset x xs c hc)

theorem dedupAdjGo_times (p : Candle) :
    ∀ (l : List Candle) (t : ℚ),
      ((p.time = t ∨ ∃ c ∈ l, c.time = t) ↔
       (p.time = t ∨ ∃ c ∈ dedupAdjGo p l, c.time = t)) := by
  intro l
  induction l generalizing p with
  | nil => intro t; simp [dedupAdjGo]
  | cons y ys ih =>
      intro t
      by_cases heq : y.time = p.time
      · have h1 := ih y t
        simp only [dedupAdjGo, if_pos heq]
        rw [List.exists_mem_cons_iff]
        rw [heq] at h1 ⊢
        constructor
        · rintro (hp | hp | hA)
          · exact h1.mp (Or.inl hp)
          · exact h1.mp (Or.inl hp)
          · exact h1.mp (Or.inr hA)
        · intro h
          exact Or.inr (h1.mpr h)
      · have h1 := ih y t
        simp only [dedupAdjGo, if_neg heq]
        rw [List.exists_mem_cons_iff, List.exists_mem_cons_iff]
        constructor
        · rintro (hp | hrest)
          · exact Or.inl hp
          · exact Or.inr (h1.mp hrest)
        · rintro (hp | hrest)
          · exact Or.inl hp
          · exact Or.inr (h1.mpr hrest)

theorem dedupAdj_times (l : List Candle) (t : ℚ) :
    (∃ c ∈ dedupAdj l, c.time = t) ↔ (∃ c ∈ l, c.time = t) := by
  cases l with
  | nil => simp [dedupAdj]
  | cons x xs =>
      have h := dedupAdjGo_times x xs t
      simp only [dedupAdj]
      rw [List.exists_mem_cons_iff, List.exists_mem_cons_iff]
      exact h.symm

theorem dedupAdjGo_chain (p : Candle) :
    ∀ l : List Candle, List.Chain' timeLe (p :: l) →
      List.Chain' timeLt (p :: dedupAdjGo p l)
  | [], _ => List.chain'_singleton p
  | y :: ys, h => by
      rw [List.chain'_cons] at h
      obtain ⟨hpy, hrest⟩ := h
      by_cases heq : y.time = p.time
      · have hy := dedupAdjGo_chain y ys hrest
        simp only [dedupAdjGo, if_pos heq]
        rw [List.chain'_cons'] at hy ⊢
        refine ⟨?_, hy.2⟩
        intro z hz
        have hlt := hy.1 z hz
        show p.time < z.time
        rw [← heq]
        exact hlt
      · have hy := dedupAdjGo_chain y ys hrest
        simp only [dedupAdjGo, if_neg heq]
        rw [List.chain'_cons]
        exact ⟨lt_of_le_of_ne hpy (fun e => heq e.symm), hy⟩

theorem sortByTime_mem {l : List Candle} {c : Candle} :
    c ∈ sortByTime l ↔ c ∈ l :=
  (List.perm_insertionSort timeLe l).mem_iff

theorem sortByTime_sorted (l : List Candle) :
    List.Sorted timeLe (sortByTime l) :=
  List.sorted_insertionSort timeLe l

/-- C9 counterexample: a bulk response of 102 rows with distinct ascending
timestamps passes through the pipeline without any trimming — all 102 candles
are loaded, contradicting the claimed "trims the result to the last N = 100
bars" (which would force a length of at most 100). -/
theorem processKlines_not_trimmed :
    (processKlines ((List.range 102).map demoRow)).length = 102 ∧
    ¬ ((processKlines ((List.range 102).map demoRow)).length ≤ maxCandles) := by
  have h : processKlines ((List.range 102).map demoRow) =
      ((List.range 102).map demoRow).map rowToCandle :=
    processKlines_of_chain (demoRows_chain 101)
  rw [h, List.length_map, List.length_map, List.length_range]
  exact ⟨rfl, by decide⟩

/-- C9 (amended): the bulk-load pipeline sorts the raw bars ascending by
timestamp, removes every bar sharing a timestamp with its predecessor in the
sorted order, and replaces the series wholesale with the result — which is
therefore strictly increasing with no duplicate timestamps, draws every
candle from the raw response, and preserves the set of raw timestamps; but it
performs no trimming to the last N = 100 bars. -/
theorem processKlines_spec_amended (raw : List KlineRow) :
    seriesOrdered (processKlines raw) ∧
    List.Pairwise (fun a b => a.time ≠ b.time) (processKlines raw) ∧
    (∀ c ∈ processKlines raw, c ∈ raw.map rowToCandle) ∧
    (∀ t : ℚ, (∃ c ∈ processKlines raw, c.time = t) ↔
        (∃ c ∈ raw.map rowToCandle, c.time = t)) := by
  have hsorted : List.Sorted timeLe (sortByTime (raw.map rowToCandle)) :=
    sortByTime_sorted _
  have hchain : List.Chain' timeLe (sortByTime (raw.map rowToCandle)) :=
    hsorted.chain'
  have hord : seriesOrdered (processKlines raw) := by
    rw [seriesOrdered_iff, processKlines]
    cases hs : sortByTime (raw.map rowToCandle) with
    | nil => simp [dedupAdj]
    | cons x xs =>
        rw [hs] at hchain
        exact dedupAdjGo_chain x xs hchain
  refine ⟨hord, seriesOrdered_pairwise_ne hord, ?_, ?_⟩
  · intro c hc
    exact sortByTime_mem.1 (dedupAdj_subset _ c hc)
  · intro t
    rw [processKlines, dedupAdj_times]
    constructor
    · rintro ⟨c, hc, hct⟩
      exact ⟨c, sortByTime_mem.1 hc, hct⟩
    · rintro ⟨c, hc, hct⟩
      exact ⟨c, sortByTime_mem.2 hc, hct⟩

/-! ## Reconnect backoff, endpoint rotation, connect idempotence -/

/-- C4: the computed base reconnect delay for (1-indexed) attempt `a` equals
the spec formula `min(1000 * 2^(a-1), 30000)`; for attempts 1..5 the base
delays are exactly 1000, 2000, 4000, 8000, 16000 ms, the cap 30000 applies
from attempt 6 on, and the jitter `r * 1000` for `r ∈ [0, 1)` lies in
`[0, 1000)`. -/
theorem reconnect_backoff_table :
    reconnectBaseDelay 1 = 1000 ∧ reconnectBaseDelay 2 = 2000 ∧
    reconnectBaseDelay 3 = 4000 ∧ reconnectBaseDelay 4 = 8000 ∧
    reconnectBaseDelay 5 = 16000 ∧
    (∀ a : Nat, reconnectBaseDelay a = specBackoffDelay a) ∧
    (∀ a : Nat, 6 ≤ a → reconnectBaseDelay a = 30000) ∧
    (∀ r : ℚ, 0 ≤ r → r < 1 → 0 ≤ jitterOf r ∧ jitterOf r < 1000) := by
  refine ⟨by decide, by decide, by decide, by decide, by decide,
    fun a => rfl, ?_, ?_⟩
  · intro a ha
    have h32 : 2 ^ 5 ≤ 2 ^ (a - 1) :=
      Nat.pow_le_pow_right (by norm_num) (by omega)
    have hbig : 30000 ≤ 1000 * 2 ^ (a - 1) := by
      calc (30000 : Nat) ≤ 1000 * 2 ^ 5 := by norm_num
        _ ≤ 1000 * 2 ^ (a - 1) := Nat.mul_le_mul_left _ h32
    exact Nat.min_eq_right hbig
  · intro r h0 h1
    constructor
    · exact mul_nonneg h0 (by norm_num)
    · have h := mul_lt_mul_of_pos_right h1 (show (0:ℚ) < 1000 by norm_num)
      simpa [jitterOf] using h

/-- Witness for C4: the cap at attempt 7 and the jitter bounds at r = 1/2. -/
theorem reconnect_backoff_table_witness :
    reconnectBaseDelay 7 = 30000 ∧
    0 ≤ jitterOf (1/2) ∧ jitterOf (1/2) < 1000 := by
  refine ⟨reconnect_backoff_table.2.2.2.2.2.2.1 7 (by norm_num), ?_, ?_⟩
  · exact (reconnect_backoff_table.2.2.2.2.2.2.2 (1/2) (by norm_num) (by norm_num)).1
  · exact (reconnect_backoff_table.2.2.2.2.2.2.2 (1/2) (by norm_num) (by norm_num)).2

/-- C5 counterexample: after two failed attempts from a fresh instance the
URL index is still 0, not 1 as "rotate after the 2nd failed attempt on the
current endpoint" would give; and after five consecutive failed attempts a
further retry is still scheduled and the terminal error has not fired. -/
theorem reconnect_rotation_counterexample :
    ¬ ((iterFailed 2 WS.init).currentUrlIndex = 1) ∧
    (iterFailed 5 WS.init).retryScheduled = true ∧
    (iterFailed 5 WS.init).maxAttemptsErrorFired = false := by
  decide

/-- C5 (amended): from a fresh instance, the URL index used by successive
failed connection attempts is 0, 0, 0, 1, 2, 0 — the first endpoint receives
three attempts, then the index advances on every further failure (the
rotation guard `reconnectAttempts > 2` fires on every failure after the
second) — and only after the 6th failed attempt (counter at
`maxReconnectAttempts = 5`) is no further retry scheduled, the terminal
`Max reconnection attempts reached` error firing at that point, with the
error callback having fired on every failure (6 socket errors plus the
terminal report). -/
theorem reconnect_rotation_trace :
    (iterFailed 1 WS.init).currentUrlIndex = 0 ∧
    (iterFailed 2 WS.init).currentUrlIndex = 0 ∧
    (iterFailed 3 WS.init).currentUrlIndex = 1 ∧
    (iterFailed 4 WS.init).currentUrlIndex = 2 ∧
    (iterFailed 5 WS.init).currentUrlIndex = 0 ∧
    (∀ n : Nat, n < 6 → 1 ≤ n →
      (iterFailed n WS.init).retryScheduled = true ∧
      (iterFailed n WS.init).maxAttemptsErrorFired = false) ∧
    (iterFailed 6 WS.init).retryScheduled = false ∧
    (iterFailed 6 WS.init).maxAttemptsErrorFired = true ∧
    (iterFailed 6 WS.init).errorCallbackCount = 7 ∧
    (iterFailed 6 WS.init).reconnectAttempts = 5 := by
  decide

/-- C6 counterexample: after a successful open (state Open, `isConnecting`
false), `connect()` is not a no-op — it constructs a second socket and starts
a second connection-timeout timer. -/
theorem connect_while_open_not_noop :
    (onOpen (connect WS.init)).wsReady = some ReadyState.OPEN ∧
    connect (onOpen (connect WS.init)) ≠ onOpen (connect WS.init) ∧
    (connect (onOpen (connect WS.init))).socketsOpened =
      (onOpen (connect WS.init)).socketsOpened + 1 ∧
    (connect (onOpen (connect WS.init))).timeoutTimersStarted =
      (onOpen (connect WS.init)).timeoutTimersStarted + 1 := by
  decide

/-- C6 (amended): `connect()` is a no-op exactly while `isConnecting` holds
(the `Connecting` phase), and `connect(); connect()` is observably equal to
`connect()`; but whenever `isConnecting` is false — in particular in the
`Open` state — `connect()` constructs a new socket and starts a new
connection-timeout timer. -/
theorem connect_idempotent_amended (s : WS) :
    (s.isConnecting = true → connect s = s) ∧
    connect (connect s) = connect s ∧
    (s.isConnecting = false →
      (connect s).socketsOpened = s.socketsOpened + 1 ∧
      (connect s).timeoutTimersStarted = s.timeoutTimersStarted + 1) := by
  refine ⟨fun h => by simp [connect, h], ?_, fun h => by simp [connect, h]⟩
  by_cases h : s.isConnecting
  · simp [connect, h]
  · simp [connect, h]

/-- Witness for C6 at concrete states: the no-op case while connecting and
the socket-open count when idle. -/
theorem connect_idempotent_witness :
    connect { WS.init with isConnecting := true } =
      { WS.init with isConnecting := true } ∧
    (connect WS.init).socketsOpened = WS.init.socketsOpened + 1 := by
  refine ⟨(connect_idempotent_amended _).1 rfl, ?_⟩
  exact ((connect_idempotent_amended WS.init).2.2 rfl).1

/-! ## Cache TTL and route fallback -/

theorem cacheFind_cacheErase_self : ∀ (c : Cache) (k : String),
    cacheFind (cacheErase c k) k = none
  | [], _ => rfl
  | (k', e) :: rest, k => by
      by_cases h : k' = k
      · simp only [cacheErase, if_pos h]
        exact cacheFind_cacheErase_self rest k
      · simp only [cacheErase, if_neg h, cacheFind, if_neg h]
        exact cacheFind_cacheErase_self rest k

theorem cacheFind_cacheSet_self (c : Cache) (k : String) (e : CacheEntry) :
    cacheFind (cacheSet c k e) k = some e := by
  simp [cacheSet, cacheFind]

/-- C7 counterexample: at the exact expiry instant `now = storedAt + ttl` the
entry is still served (the code expires only strictly after `ttl`), where the
claim requires `null`. -/
theorem cache_ttl_boundary_counterexample :
    (getCachedData (setCacheData [] "k" (ApiData.upstream 7) 30000 0)
      "k" 30000).1 = some (ApiData.upstream 7) ∧
    ¬ ((getCachedData (setCacheData [] "k" (ApiData.upstream 7) 30000 0)
      "k" 30000).1 = none) := by
  decide

/-- C7 (amended): after `setCacheData` at `storedAt` with a nonnegative `ttl`
and no intervening store, a read at `now` returns the stored payload whenever
`now - storedAt ≤ ttl` (in particular immediately after the store), and
returns `null` and evicts the entry once `now - storedAt > ttl` — expiry is
strict, so at the exact instant `now = storedAt + ttl` the payload is still
returned. -/
theorem cache_ttl_amended (cache : Cache) (key : String) (d : ApiData)
    (ttl storedAt now : ℤ) (httl : 0 ≤ ttl) :
    (now - storedAt ≤ ttl →
      (getCachedData (setCacheData cache key d ttl storedAt) key now).1 =
        some d) ∧
    (now - storedAt > ttl →
      (getCachedData (setCacheData cache key d ttl storedAt) key now).1 =
        none ∧
      cacheFind
        (getCachedData (setCacheData cache key d ttl storedAt) key now).2
        key = none) ∧
    (getCachedData (setCacheData cache key d ttl storedAt) key storedAt).1 =
      some d := by
  have hfind : cacheFind (setCacheData cache key d ttl storedAt) key =
      some ⟨d, storedAt, ttl⟩ := cacheFind_cacheSet_self cache key _
  refine ⟨?_, ?_, ?_⟩
  · intro hle
    have hnot : ¬ (now - storedAt > ttl) := not_lt.2 hle
    simp [getCachedData, hfind, hnot]
  · intro hgt
    constructor
    · simp [getCachedData, hfind, hgt]
    · simp only [getCachedData, hfind, if_pos hgt]
      exact cacheFind_cacheErase_self _ key
  · have hnot : ¬ (ttl < 0) := by omega
    simp [getCachedData, hfind, hnot]

/-- Witness for C7: a concrete store with ttl 10 read before and after
expiry. -/
theorem cache_ttl_amended_witness :
    (getCachedData (setCacheData [] "q" (ApiData.upstream 3) 10 0) "q" 5).1 =
      some (ApiData.upstream 3) ∧
    (getCachedData (setCacheData [] "q" (ApiData.upstream 3) 10 0) "q" 11).1 =
      none := by
  have h5 := cache_ttl_amended [] "q" (ApiData.upstream 3) 10 0 5 (by decide)
  have h11 := cache_ttl_amended [] "q" (ApiData.upstream 3) 10 0 11 (by decide)
  exact ⟨h5.1 (by decide), (h11.2.1 (by decide)).1⟩

/-- C8: on upstream failure with no valid cached value, the route returns the
static fallback payload (status 200, marked `X-Fallback`) for the `ticker`
and `price` endpoints, and a 500 error report — never a JSON payload that
could stand in for bars — for the `klines` endpoint. -/
theorem fallback_quotes_error_bars (cache : Cache) (endpoint : Endpoint)
    (symbol interval limit : String) (now : ℤ) (doCleanup : Bool)
    (hmiss : (getCachedData (if doCleanup then cleanupCache cache now else cache)
        (cacheKeyOf endpoint symbol interval limit) now).1 = none) :
    (endpoint = Endpoint.ticker →
      (GET cache endpoint symbol interval limit now doCleanup none).1 =
        ⟨ResponseBody.json (ApiData.fallbackTicker symbol), 200, true⟩) ∧
    (endpoint = Endpoint.price →
      (GET cache endpoint symbol interval limit now doCleanup none).1 =
        ⟨ResponseBody.json (ApiData.fallbackPrice symbol), 200, true⟩) ∧
    (endpoint = Endpoint.klines →
      (GET cache endpoint symbol interval limit now doCleanup none).1 =
        ⟨ResponseBody.errorReport "klines" symbol, 500, false⟩ ∧
      ∀ d : ApiData,
        (GET cache endpoint symbol interval limit now doCleanup none).1.body ≠
          ResponseBody.json d) := by
  refine ⟨?_, ?_, ?_⟩
  · rintro rfl
    simp [GET, hmiss]
  · rintro rfl
    simp [GET, hmiss]
  · rintro rfl
    constructor
    · simp [GET, hmiss]
    · intro d
      simp [GET, hmiss]

/-- Witness for C8: empty cache, failed upstream — ticker gets the fallback,
klines gets the 500 error. -/
theorem fallback_quotes_error_bars_witness :
    (GET [] Endpoint.ticker "BTCUSDT" "5m" "100" 0 false none).1 =
      ⟨ResponseBody.json (ApiData.fallbackTicker "BTCUSDT"), 200, true⟩ ∧
    (GET [] Endpoint.klines "BTCUSDT" "5m" "100" 0 false none).1 =
      ⟨ResponseBody.errorReport "klines" "BTCUSDT", 500, false⟩ := by
  have ht := fallback_quotes_error_bars [] Endpoint.ticker "BTCUSDT" "5m" "100"
    0 false rfl
  have hk := fallback_quotes_error_bars [] Endpoint.klines "BTCUSDT" "5m" "100"
    0 false rfl
  exact ⟨ht.1 rfl, (hk.2.2 rfl).1⟩

/-! ## Kline-derived ticker updates -/

theorem parseDec_zero_string : parseDec "0.00" = 0 := by
  show ((0 : ℚ) + (0 : ℚ) / (10 : ℚ) ^ 2) = 0
  norm_num

/-- C10: every kline stream message carrying a (truthy) close price makes the
connection manager forward a synthesized ticker whose price fields come from
the kline but whose change and change-percent fields are the constant string
"0.00"; the consumer's `handleTickerUpdate` therefore overwrites its
price-change and change-percent state with 0 on every such update, while the
current price becomes the parsed kline close. -/
theorem kline_ticker_zero_change (msg : WsMessage) (st : MarketState)
    (he : msg.e = "kline") (hc : msg.k.c ≠ "") :
    ∃ t : WebSocketTickerData,
      onMessageTicker msg = some t ∧
      t.p = "0.00" ∧ t.P = "0.00" ∧ t.c = msg.k.c ∧
      (handleTickerUpdate st t).priceChange = 0 ∧
      (handleTickerUpdate st t).priceChangePercent = 0 ∧
      (handleTickerUpdate st t).currentPrice = some (parseDec msg.k.c) := by
  refine ⟨{ e := "24hrTicker", E := msg.E, s := msg.s, c := msg.k.c,
            o := msg.k.o, h := msg.k.h, l := msg.k.l,
            P := "0.00", p := "0.00" }, ?_, rfl, rfl, rfl, ?_, ?_, rfl⟩
  · rw [onMessageTicker, if_pos ⟨he, hc⟩]
  · show parseDec "0.00" = 0
    exact parseDec_zero_string
  · show parseDec "0.00" = 0
    exact parseDec_zero_string

/-- Witness for C10 on a concrete kline frame with close price "1.5". -/
theorem kline_ticker_zero_change_witness :
    ∃ t : WebSocketTickerData,
      onMessageTicker ⟨"kline", 0, "BTCUSDT", ⟨0, "1", "2", "0", "1.5", "3"⟩⟩ =
        some t ∧
      t.p = "0.00" ∧ t.P = "0.00" ∧
      t.c = (⟨"kline", 0, "BTCUSDT",
        (⟨0, "1", "2", "0", "1.5", "3"⟩ : KlinePayload)⟩ : WsMessage).k.c ∧
      (handleTickerUpdate ⟨none, 0, 0⟩ t).priceChange = 0 ∧
      (handleTickerUpdate ⟨none, 0, 0⟩ t).priceChangePercent = 0 ∧
      (handleTickerUpdate ⟨none, 0, 0⟩ t).currentPrice =
        some (parseDec (⟨"kline", 0, "BTCUSDT",
          (⟨0, "1", "2", "0", "1.5", "3"⟩ : KlinePayload)⟩ : WsMessage).k.c) :=
  kline_ticker_zero_change _ _ rfl (by decide)

/-- Witness for C5: the bounded-range clause of the trace at n = 3. -/
theorem reconnect_rotation_trace_witness :
    (iterFailed 3 WS.init).retryScheduled = true ∧
    (iterFailed 3 WS.init).maxAttemptsErrorFired = false :=
  reconnect_rotation_trace.2.2.2.2.2.1 3 (by decide) (by decide)

/-- Witness for C9: ordering and membership on a concrete two-row response. -/
theorem processKlines_spec_witness :
    seriesOrdered (processKlines ((List.range 2).map demoRow)) ∧
    rowToCandle (demoRow 0) ∈ ((List.range 2).map demoRow).map rowToCandle := by
  have h := processKlines_spec_amended ((List.range 2).map demoRow)
  have heq : processKlines ((List.range 2).map demoRow) =
      ((List.range 2).map demoRow).map rowToCandle :=
    processKlines_of_chain (demoRows_chain 1)
  have hmem : rowToCandle (demoRow 0) ∈ processKlines ((List.range 2).map demoRow) := by
    rw [heq]
    exact List.mem_map_of_mem rowToCandle
      (List.mem_map_of_mem demoRow (by decide))
  exact ⟨h.1, h.2.2.1 (rowToCandle (demoRow 0)) hmem⟩
